import Mathlib

/-!
Shallow embedding of the fuzzy-matching patch engine of this repository:
the `code_edit` tool (escalating match-strategy resolver, created by
`createCodeEditTool`) and the `code_apply_diff` tool (multi-hunk
SEARCH/REPLACE applier, created by `createCodeApplyDiffTool`).

File contents are modelled as `List Char`.  JavaScript regular expressions
occur in the source only in the fixed shapes produced by
`buildWhitespaceTolerantRegex`, `buildTokenRegex` and the inline
whitespace-tolerant pattern of `findSearchContent`; these are embedded as
segment lists (`Seg`) together with a backtracking matcher mirroring the
JS engine on those shapes (greedy `+`, leftmost match, non-overlapping
global scans).  Loops whose progress is by position rather than by list
structure take an explicit fuel argument that is always instantiated so
large (content length + 1) that it never runs out, since every iteration
of the corresponding source loop advances by at least one character.

File-system effects (`ops.access` / `ops.readFile` / `ops.writeFile` /
`ops.mkdir`) are modelled by an event trace (`FsEvent`) plus the target
file's state before and after the call (`Option (List Char)`, `none`
meaning the file does not exist).  Path resolution, sandbox guards and
abort signals are outside the claims and are not modelled.
-/

/-- The character `$` used by the JS replacement-template syntax. -/
def dollarChar : Char := Char.ofNat 36

/-- The backquote character, written via its code point. -/
def backquoteChar : Char := Char.ofNat 96

/-- The single-quote character, written via its code point. -/
def singleQuoteChar : Char := Char.ofNat 39

/-- The JavaScript `\s` character class (WhiteSpace ∪ LineTerminator,
as used by `/\s/`). -/
def isJsWs (c : Char) : Bool :=
  c = ' ' || c = '\t' || c = '\n' || c.toNat = 11 || c.toNat = 12 || c = '\r' ||
  c.toNat = 0xa0 || c.toNat = 0x1680 || (0x2000 ≤ c.toNat && c.toNat ≤ 0x200a) ||
  c.toNat = 0x2028 || c.toNat = 0x2029 || c.toNat = 0x202f || c.toNat = 0x205f ||
  c.toNat = 0x3000 || c.toNat = 0xfeff

/-- The character class `[\t ]` used for horizontal-whitespace runs. -/
def isHws (c : Char) : Bool :=
  c = '\t' || c = ' '

/-- JS `String.prototype.trim` (whitespace stripped from both ends). -/
def trimJs (s : List Char) : List Char :=
  ((s.dropWhile isJsWs).reverse.dropWhile isJsWs).reverse

/-- JS `String.prototype.indexOf(pat)`: index of the first occurrence of
`pat` as a contiguous substring, `none` when absent. -/
def indexOfList : List Char → List Char → Option Nat
  | s, pat =>
    if pat.isPrefixOf s then some 0
    else
      match s with
      | [] => none
      | _ :: t => (indexOfList t pat).map (· + 1)

/-- JS `String.prototype.indexOf(pat, i)`: first occurrence at index `≥ i`.
(Only ever used with non-empty `pat`, where it agrees with JS.) -/
def indexOfFrom (orig pat : List Char) (i : Nat) : Option Nat :=
  (indexOfList (orig.drop i) pat).map (· + i)

/-- Source `countOccurrences`: non-overlapping occurrences of `substr` in
`str`, scanning left to right and restarting after each hit; `0` for the
empty search string.  The source loop advances `pos` by `substr.length ≥ 1`
each round, so fuel `str.length + 1` never runs out. -/
def countOccAux (str substr : List Char) : Nat → Nat → Nat
  | 0, _ => 0
  | fuel + 1, pos =>
    match indexOfFrom str substr pos with
    | none => 0
    | some j => 1 + countOccAux str substr fuel (j + substr.length)

/-- Source `countOccurrences` (entry point). -/
def countOccurrences (str substr : List Char) : Nat :=
  if substr = [] then 0 else countOccAux str substr (str.length + 1) 0

/-- Source `type LineEnding = "\r\n" | "\n"`. -/
inductive LineEnding where
  | crlf
  | lf
  deriving DecidableEq, Repr

/-- JS `content.includes("\r\n")`. -/
def containsCRLF : List Char → Bool
  | [] => false
  | '\r' :: '\n' :: _ => true
  | _ :: t => containsCRLF t

/-- Source `detectLineEnding`: CRLF exactly when some `"\r\n"` occurs. -/
def detectLineEnding (content : List Char) : LineEnding :=
  if containsCRLF content then .crlf else .lf

/-- Source `normalizeToLF`: `content.replace(/\r\n/g, "\n")` — every
(left-to-right, non-overlapping) `"\r\n"` pair becomes `"\n"`. -/
def normalizeToLF : List Char → List Char
  | [] => []
  | '\r' :: '\n' :: t => '\n' :: normalizeToLF t
  | c :: t => c :: normalizeToLF t

/-- `contentLF.replace(/\n/g, "\r\n")`: every `'\n'` becomes `"\r\n"`
(the replacement string contains no `$`, so it is copied literally). -/
def restoreCRLF : List Char → List Char
  | [] => []
  | '\n' :: t => '\r' :: '\n' :: restoreCRLF t
  | c :: t => c :: restoreCRLF t

/-- Source `restoreLineEnding`. -/
def restoreLineEnding (contentLF : List Char) (eol : LineEnding) : List Char :=
  match eol with
  | .lf => contentLF
  | .crlf => restoreCRLF contentLF

/-- JS `GetSubstitution` for a *string* search pattern (zero capture
groups): scans the replacement template; `$$` yields `$`, `$&` yields the
matched text, ``$` `` yields the text before the match, `$'` yields the
text after the match, and any other `$` (including `$1`…`$9`, which have
no corresponding capture for a string pattern) is kept literally. -/
def substTemplate (matched before after : List Char) : List Char → List Char
  | [] => []
  | '$' :: c :: t =>
    if c = dollarChar then dollarChar :: substTemplate matched before after t
    else if c = '&' then matched ++ substTemplate matched before after t
    else if c = backquoteChar then before ++ substTemplate matched before after t
    else if c = singleQuoteChar then after ++ substTemplate matched before after t
    else dollarChar :: substTemplate matched before after (c :: t)
  | c :: t => c :: substTemplate matched before after t

/-- JS `str.replaceAll(pat, template)` for a string `pat` (all
non-overlapping occurrences, left to right, each replaced by
`GetSubstitution(template)` computed against the original string).  Each
round advances the scan position by `pat.length ≥ 1`, so fuel
`orig.length + 1` never runs out.  `(orig.drop i).take (j - i)` is the
untouched stretch between scan position `i` and the next hit `j`. -/
def replaceAllTemplAux (orig pat template : List Char) : Nat → Nat → List Char
  | 0, i => orig.drop i
  | fuel + 1, i =>
    match indexOfFrom orig pat i with
    | none => orig.drop i
    | some j =>
      (orig.drop i).take (j - i)
        ++ substTemplate pat (orig.take j) (orig.drop (j + pat.length)) template
        ++ replaceAllTemplAux orig pat template fuel (j + pat.length)

/-- JS `str.replaceAll(pat, template)` entry point (only used with
non-empty `pat`; the `pat = []` case is never reached). -/
def replaceAllTempl (orig pat template : List Char) : List Char :=
  if pat = [] then orig else replaceAllTemplAux orig pat template (orig.length + 1) 0

/-- Source line `newString.replaceAll("$", "$$$$")`: the replacement
template `"$$$$"` is itself `$`-processed to `"$$"`, so each `$` of the
input is doubled (see `substTemplate_two_pairs` below for the template
evaluation). -/
def escapeDollars : List Char → List Char
  | [] => []
  | c :: t => if c = dollarChar then dollarChar :: dollarChar :: escapeDollars t
              else c :: escapeDollars t

/-- Source `safeLiteralReplace`: return `str` unchanged when the search
string is empty or absent; otherwise replace all occurrences, escaping `$`
in the replacement first when it contains one (both branches go through
JS `replaceAll`, whose replacement argument is `$`-template-processed). -/
def safeLiteralReplace (str old new : List Char) : List Char :=
  if old = [] ∨ indexOfList str old = none then str
  else if new.contains dollarChar = false then replaceAllTempl str old new
  else replaceAllTempl str old (escapeDollars new)

/-- Plain verbatim replace-all, written from the spec's words: every
non-overlapping occurrence of `pat` is replaced by `new` copied as an
opaque character sequence, with no substitution-templating.  Used as the
reference against which `safeLiteralReplace` is compared. -/
def replaceAllVerbatimAux (orig pat new : List Char) : Nat → Nat → List Char
  | 0, i => orig.drop i
  | fuel + 1, i =>
    match indexOfFrom orig pat i with
    | none => orig.drop i
    | some j =>
      (orig.drop i).take (j - i) ++ new
        ++ replaceAllVerbatimAux orig pat new fuel (j + pat.length)

/-- Verbatim replace-all entry point (spec-side reference). -/
def replaceAllVerbatim (orig pat new : List Char) : List Char :=
  if pat = [] then orig else replaceAllVerbatimAux orig pat new (orig.length + 1) 0

/-- One segment of a dynamically built source regex: an escaped literal
fragment (`escapeRegExp` makes every character literal), a `\s+` run, or a
`[\t ]+` run. -/
inductive Seg where
  | lit (w : List Char)
  | ws
  | hws
  deriving DecidableEq, Repr

/-- Maximal runs of same-class characters (whitespace vs not), i.e. the
result of JS `s.match(/(\s+|\S+)/g)` (which yields `[]` for `s = ""`).
Each step consumes at least one character, so fuel `s.length` suffices. -/
def chunkRunsF : Nat → List Char → List (List Char)
  | 0, _ => []
  | _, [] => []
  | fuel + 1, c :: t =>
    (c :: t.takeWhile (fun x => isJsWs x = isJsWs c))
      :: chunkRunsF fuel (t.dropWhile (fun x => isJsWs x = isJsWs c))

/-- Entry point for `s.match(/(\s+|\S+)/g)`. -/
def chunkRuns (s : List Char) : List (List Char) :=
  chunkRunsF s.length s

/-- JS `s.split(/\s+/).filter(Boolean)`: the maximal non-whitespace runs. -/
def wsTokens (s : List Char) : List (List Char) :=
  (chunkRuns s).filter (fun r => !(r.all isJsWs))

/-- The segment list built by `buildWhitespaceTolerantRegex` (and by the
inline whitespace-tolerant pattern of `findSearchContent`): each
whitespace run becomes `\s+` when it contains a newline and `[\t ]+`
otherwise; each non-whitespace run is matched literally. -/
def wsSegsOf (s : List Char) : List Seg :=
  (chunkRuns s).map (fun part =>
    if part.all isJsWs then (if part.contains '\n' then Seg.ws else Seg.hws)
    else Seg.lit part)

/-- Source `buildWhitespaceTolerantRegex`; `none` models the
never-matching regex `(?!)` returned for an empty search string. -/
def buildWhitespaceTolerantRegex (oldLF : List Char) : Option (List Seg) :=
  if oldLF = [] then none else some (wsSegsOf oldLF)

/-- Source `buildTokenRegex`: tokens (maximal non-whitespace runs) joined
by `\s+`; `none` models `(?!)` when there are no tokens. -/
def buildTokenRegex (oldLF : List Char) : Option (List Seg) :=
  let tokens := wsTokens oldLF
  if tokens = [] then none
  else some ((tokens.map Seg.lit).intersperse Seg.ws)

/-- Length of the maximal prefix of `s` satisfying `p`. -/
def maxRun (p : Char → Bool) (s : List Char) : Nat :=
  (s.takeWhile p).length

/-- Greedy backtracking over a `+`-run: try consuming `k, k-1, …, 1`
characters, first success wins (this is exactly the JS order for a greedy
`X+` followed by the rest of the pattern). -/
def tryLens (f : Nat → Option Nat) : Nat → Option Nat
  | 0 => none
  | k + 1 =>
    match f (k + 1) with
    | some r => some r
    | none => tryLens f k

/-- Match a segment list at the *start* of `s`, returning the number of
characters consumed (JS backtracking semantics on these pattern shapes). -/
def matchSegs : List Seg → List Char → Option Nat
  | [], _ => some 0
  | Seg.lit w :: rest, s =>
    if w.isPrefixOf s then (matchSegs rest (s.drop w.length)).map (w.length + ·) else none
  | Seg.ws :: rest, s =>
    tryLens (fun k => (matchSegs rest (s.drop k)).map (k + ·)) (maxRun isJsWs s)
  | Seg.hws :: rest, s =>
    tryLens (fun k => (matchSegs rest (s.drop k)).map (k + ·)) (maxRun isHws s)

/-- Leftmost match of a segment list in `s`: smallest start index with a
match, plus the matched length (JS `regex.exec` for these patterns). -/
def findMatchFrom : List Seg → List Char → Option (Nat × Nat)
  | segs, s =>
    match matchSegs segs s with
    | some len => some (0, len)
    | none =>
      match s with
      | [] => none
      | _ :: t => (findMatchFrom segs t).map (fun r => (r.1 + 1, r.2))

/-- Count of non-overlapping global matches (JS `matchAll`): after a match
of length `len` the scan resumes `max len 1` characters further (the
`+ 1` mirrors the JS empty-match rule; the patterns built here always
consume at least one character).  Each round advances by at least one
character, so fuel `s.length + 1` never runs out. -/
def countMatchesF (segs : List Seg) : Nat → List Char → Nat
  | 0, _ => 0
  | fuel + 1, s =>
    match findMatchFrom segs s with
    | none => 0
    | some (i, len) => 1 + countMatchesF segs fuel (s.drop (i + max len 1))

/-- Source `countRegexMatches` (`none` = the never-matching `(?!)`). -/
def countRegexMatches (p : Option (List Seg)) (s : List Char) : Nat :=
  match p with
  | none => 0
  | some segs => countMatchesF segs (s.length + 1) s

/-- JS `s.replace(regex, () => repl)` with a global regex and a constant
replacer function (the function's return value is used literally, with no
`$`-template processing).  The `len = 0` branch mirrors the JS empty-match
rule (keep the character, advance one); it is dead for the patterns built
here, whose matches always consume at least one character. -/
def replaceMatchesF (segs : List Seg) (repl : List Char) : Nat → List Char → List Char
  | 0, s => s
  | fuel + 1, s =>
    match findMatchFrom segs s with
    | none => s
    | some (i, len) =>
      if len = 0 then
        s.take i ++ repl ++ (s.drop i).take 1 ++ replaceMatchesF segs repl fuel (s.drop (i + 1))
      else
        s.take i ++ repl ++ replaceMatchesF segs repl fuel (s.drop (i + len))

/-- Global regex replacement entry point. -/
def replaceRegexGlobal (p : Option (List Seg)) (repl s : List Char) : List Char :=
  match p with
  | none => s
  | some segs => replaceMatchesF segs repl (s.length + 1) s

/-- Source `matchStrategy` values of the 3-tier resolver. -/
inductive Strategy where
  | exact
  | wsTolerant
  | tokenBased
  deriving DecidableEq, Repr

/-- Outcome of the 3-tier fuzzy-matching block of `createCodeEditTool`
(lines computing `resultContentLF` / throwing the three diagnostics). -/
inductive ResolveOutcome where
  | committed (resultContentLF : List Char) (strategy : Strategy)
  | errNoMatch
  | errExactMismatch (exactCount : Nat)
  | errRelaxedMismatch (wsCount tokenCount : Nat)
  deriving DecidableEq, Repr

/-- The 3-tier fuzzy-matching resolver of `createCodeEditTool.execute`:
exact literal count first, then the whitespace-tolerant regex count, then
the token-based regex count; whichever first equals `expectedCount`
commits; otherwise one of the three diagnostics, distinguished exactly as
in the source (`!anyMatches` → no match; `exactCount > 0` → exact-count
mismatch; otherwise both relaxed counts).  (The source builds both regexes
before strategy 1 — pure construction, counted only on demand.) -/
def resolveMatch (contentLF oldLF newLF : List Char) (expectedCount : Nat) : ResolveOutcome :=
  let exactCount := countOccurrences contentLF oldLF
  if exactCount = expectedCount then
    .committed (safeLiteralReplace contentLF oldLF newLF) .exact
  else
    let wsRegex := buildWhitespaceTolerantRegex oldLF
    let wsCount := countRegexMatches wsRegex contentLF
    if wsCount = expectedCount then
      .committed (replaceRegexGlobal wsRegex newLF contentLF) .wsTolerant
    else
      let tokenRegex := buildTokenRegex oldLF
      let tokenCount := countRegexMatches tokenRegex contentLF
      if tokenCount = expectedCount then
        .committed (replaceRegexGlobal tokenRegex newLF contentLF) .tokenBased
      else if exactCount = 0 ∧ wsCount = 0 ∧ tokenCount = 0 then
        .errNoMatch
      else if 0 < exactCount then
        .errExactMismatch exactCount
      else
        .errRelaxedMismatch wsCount tokenCount

/-- `Math.max(1, expected_replacements ?? 1)` (lines reading the
`expected_replacements` argument; the schema's values are integral). -/
def effectiveExpected (e : Option Int) : Nat :=
  (max 1 (e.getD 1)).toNat

/-- One file-system operation performed through the `ops` capability. -/
inductive FsEvent where
  | access
  | read
  | write
  | mkdir
  deriving DecidableEq, Repr

/-- Result of one `code_edit` call (error constructors correspond to the
thrown `formatError` messages; text formatting is not modelled). -/
inductive CodeEditResult where
  | createdFile (content : List Char)
  | errAlreadyExists
  | errFileNotExist
  | errIdentical
  | errNoMatch
  | errExactMismatch (exactCount : Nat)
  | errRelaxedMismatch (wsCount tokenCount : Nat)
  | noChangesNeeded
  | edited (finalContent : List Char) (strategy : Strategy)
  deriving DecidableEq, Repr

/-- `createCodeEditTool.execute` on a resolved path whose target file
state is `file` (`none` = absent): returns the result, the new file state,
and the trace of file-system operations in order.  Mirrors the source
order: create mode checks existence (access) and writes; edit mode checks
existence (access), reads, validates `oldLF ≠ newLF`, resolves, and only
writes after a successful, non-identity resolution. -/
def codeEditExecuteCore (file : Option (List Char)) (old new : List Char)
    (expectedCount : Nat) : CodeEditResult × Option (List Char) × List FsEvent :=
  if old = [] then
    match file with
    | some _ => (.errAlreadyExists, file, [.access])
    | none => (.createdFile new, some new, [.access, .mkdir, .write])
  else
    match file with
    | none => (.errFileNotExist, none, [.access])
    | some raw =>
      let originalEol := detectLineEnding raw
      let contentLF := normalizeToLF raw
      let oldLF := normalizeToLF old
      let newLF := normalizeToLF new
      if oldLF = newLF then (.errIdentical, some raw, [.access, .read])
      else
        match resolveMatch contentLF oldLF newLF expectedCount with
        | .errNoMatch => (.errNoMatch, some raw, [.access, .read])
        | .errExactMismatch n => (.errExactMismatch n, some raw, [.access, .read])
        | .errRelaxedMismatch w t => (.errRelaxedMismatch w t, some raw, [.access, .read])
        | .committed res strat =>
          if res = contentLF then (.noChangesNeeded, some raw, [.access, .read])
          else
            let finalContent := restoreLineEnding res originalEol
            (.edited finalContent strat, some finalContent, [.access, .read, .write])

/-- `createCodeEditTool.execute` including the
`Math.max(1, expected_replacements ?? 1)` computation. -/
def codeEditExecute (file : Option (List Char)) (old new : List Char)
    (e : Option Int) : CodeEditResult × Option (List Char) × List FsEvent :=
  codeEditExecuteCore file old new (effectiveExpected e)

/-- JS `content.split("\n")` (always at least one piece). -/
def splitNl : List Char → List (List Char)
  | [] => [[]]
  | '\n' :: t => [] :: splitNl t
  | c :: t =>
    match splitNl t with
    | h :: r => (c :: h) :: r
    | [] => [[c]]

/-- JS `lines.join("\n")`. -/
def intercalNl : List (List Char) → List Char
  | [] => []
  | [l] => l
  | l :: r => l ++ '\n' :: intercalNl r

/-- The 1-indexed line of a character index, as the source computes it:
`contentLF.substring(0, idx).split("\n").length`. -/
def lineOfIndex (contentLF : List Char) (idx : Nat) : Nat :=
  (splitNl (contentLF.take idx)).length

/-- Number of newline characters in `s` (reference definition used to
state that matched lines are 1-indexed: `lineOfIndex s i = countNl of the
first i characters + 1`). -/
def countNl (s : List Char) : Nat :=
  (s.filter (fun c => c = '\n')).length

/-- The fixed `windowSize = 30` of `findSearchContent` (±30 lines). -/
def windowSize : Nat := 30

/-- `Math.max(0, hintIdx - windowSize)` for hint line `n` (1-indexed);
truncated `Nat` subtraction is exactly the clamp at 0. -/
def hintWindowStart (n : Nat) : Nat :=
  (n - 1) - windowSize

/-- `lines.slice(windowStart, windowEnd).join("\n")` with
`windowEnd = Math.min(lines.length, hintIdx + windowSize)`. -/
def hintWindowContent (lines : List (List Char)) (n : Nat) : List Char :=
  intercalNl ((lines.drop (hintWindowStart n)).take
    (min lines.length ((n - 1) + windowSize) - hintWindowStart n))

/-- `lines.slice(0, windowStart).join("\n").length + (windowStart > 0 ? 1 : 0)`. -/
def linePrefixLen (lines : List (List Char)) (k : Nat) : Nat :=
  (intercalNl (lines.take k)).length + (if k = 0 then 0 else 1)

/-- Strategy 1 of `findSearchContent`: with a positive line hint, exact
literal search restricted to the ±30-line window, translating the local
offset back to a global offset and computing the 1-indexed matched line. -/
def findSearchHinted (contentLF searchLF : List Char) (startLine : Option Nat) :
    Option (Nat × Nat) :=
  match startLine with
  | some n =>
    if 0 < n then
      let lines := splitNl contentLF
      match indexOfList (hintWindowContent lines n) searchLF with
      | some localIdx =>
        let globalIdx := linePrefixLen lines (hintWindowStart n) + localIdx
        some (globalIdx, lineOfIndex contentLF globalIdx)
      | none => none
    else none
  | none => none

/-- Source `findSearchContent`: (1) with a positive line hint, exact
literal search restricted to the ±30-line window, translating the local
offset back to a global offset; (2) exact literal search anywhere;
(3) whitespace-tolerant pattern search anywhere (first match).  Returns
the character index and the 1-indexed matched line, or `none`.  Token
matching does not appear here. -/
def findSearchContent (contentLF searchLF : List Char) (startLine : Option Nat) :
    Option (Nat × Nat) :=
  match findSearchHinted contentLF searchLF startLine with
  | some r => some r
  | none =>
    match indexOfList contentLF searchLF with
    | some idx => some (idx, lineOfIndex contentLF idx)
    | none =>
      if chunkRuns searchLF = [] then none
      else
        match findMatchFrom (wsSegsOf searchLF) contentLF with
        | some r => some (r.1, lineOfIndex contentLF r.1)
        | none => none

/-- Source `interface DiffBlock` (the `rawBlock` field, used only for
error text, is not modelled). -/
structure DiffBlock where
  startLine : Option Nat
  searchContent : List Char
  replaceContent : List Char
  deriving DecidableEq, Repr

/-- `"<<<<<<< SEARCH"`. -/
def searchMarker : List Char := ("<<<<<<< SEARCH".data)

/-- `"======="`. -/
def separatorMarker : List Char := ("=======".data)

/-- `">>>>>>> REPLACE"`. -/
def replaceMarker : List Char := (">>>>>>> REPLACE".data)

/-- `"-------"`. -/
def dividerMarker : List Char := ("-------".data)

/-- `":start_line:"`. -/
def startLineTag : List Char := (":start_line:".data)

/-- `START_LINE_RE = /^:start_line:(\d+)\s*$/` applied to an
already-trimmed line, with `parseInt(match[1], 10)`. -/
def parseStartLine (l : List Char) : Option Nat :=
  let rest := l.drop startLineTag.length
  if startLineTag.isPrefixOf l ∧ rest ≠ [] ∧ rest.all Char.isDigit then
    some (rest.foldl (fun a c => a * 10 + (c.toNat - 48)) 0)
  else none

/-- Source `parseDiffBlocks` loop over the split lines: skip until a
`SEARCH` marker; then optionally a `:start_line:` directive and a divider;
raw lines up to the separator form the search body (missing separator is
fatal); raw lines up to the `REPLACE` marker form the replacement body
(missing marker is fatal).  Every round consumes at least one line, so
fuel `lines.length + 1` never runs out. -/
def parseBlocksF : Nat → List (List Char) → Except String (List DiffBlock)
  | 0, _ => .ok []
  | _, [] => .ok []
  | fuel + 1, l :: rest =>
    if trimJs l ≠ searchMarker then parseBlocksF fuel rest
    else
      let p1 : Option Nat × List (List Char) :=
        match rest with
        | l2 :: r2 =>
          match parseStartLine (trimJs l2) with
          | some n => (some n, r2)
          | none => (none, l2 :: r2)
        | [] => (none, [])
      let r1 := p1.2
      let r2 :=
        match r1 with
        | l3 :: r3 => if trimJs l3 = dividerMarker then r3 else r1
        | [] => r1
      let searchLines := r2.takeWhile (fun x => trimJs x ≠ separatorMarker)
      let r3 := r2.dropWhile (fun x => trimJs x ≠ separatorMarker)
      match r3 with
      | [] => .error "missing ======= separator"
      | _ :: r4 =>
        let replaceLines := r4.takeWhile (fun x => trimJs x ≠ replaceMarker)
        let r5 := r4.dropWhile (fun x => trimJs x ≠ replaceMarker)
        match r5 with
        | [] => .error "missing REPLACE marker"
        | _ :: r6 =>
          match parseBlocksF fuel r6 with
          | .error e => .error e
          | .ok blocks =>
            .ok ({ startLine := p1.1, searchContent := intercalNl searchLines,
                   replaceContent := intercalNl replaceLines } :: blocks)

/-- Source `parseDiffBlocks` entry point. -/
def parseDiffBlocks (diff : List Char) : Except String (List DiffBlock) :=
  let lines := splitNl diff
  parseBlocksF (lines.length + 1) lines

/-- One entry of `applyAllBlocks`' located-match list (`blockIdx`
models JS object identity of the parsed block: each parsed block is a
distinct object, so equality-by-reference is equality of positions). -/
structure Located where
  blockIdx : Nat
  index : Nat
  matchLength : Nat
  matchedAtLine : Nat
  replaceLF : List Char
  deriving DecidableEq, Repr

/-- The locate phase of `applyAllBlocks` for one block: empty (normalized)
search bodies fail; otherwise `findSearchContent` against `contentLF`.
`matchLength` is `searchLF.length`. -/
def locateBlock (contentLF : List Char) (i : Nat) (b : DiffBlock) : Option Located :=
  let searchLF := normalizeToLF b.searchContent
  if searchLF = [] then none
  else
    match findSearchContent contentLF searchLF b.startLine with
    | none => none
    | some r =>
      some { blockIdx := i, index := r.1, matchLength := searchLF.length,
             matchedAtLine := r.2, replaceLF := normalizeToLF b.replaceContent }

/-- All successfully located blocks, in parse order, each located
read-only against the same `contentLF`. -/
def locateAll (contentLF : List Char) (blocks : List DiffBlock) : List Located :=
  blocks.enum.filterMap (fun p => locateBlock contentLF p.1 p.2)

/-- `matchResults.sort((a, b) => b.index - a.index)`: a stable sort into
descending index order.  JS `Array.prototype.sort` is required to be
stable, and `List.insertionSort` with `b.index ≤ a.index` is the stable
descending sort, so the two agree. -/
def sortByIndexDesc (l : List Located) : List Located :=
  List.insertionSort (fun a b => b.index ≤ a.index) l

/-- One splice of the apply loop:
`result.substring(0, index) + replaceLF + result.substring(index + matchLength)`. -/
def spliceOne (s : List Char) (m : Located) : List Char :=
  s.take m.index ++ m.replaceLF ++ s.drop (m.index + m.matchLength)

/-- Per-block outcome (`error` text not modelled; `success` and
`matchedAtLine` are what the result report uses). -/
structure BlockResult where
  success : Bool
  matchedAtLine : Option Nat
  deriving DecidableEq, Repr

/-- Source `applyAllBlocks`: locate every block against the original
`contentLF`, sort the located matches by descending start offset, splice
their replacements in that order, and report per-block results in the
original block order.  (The source recombines results by object identity
of the block; since each parsed block is a distinct object, that is
exactly "success iff this position's block located", as written here.) -/
def applyAllBlocks (contentLF : List Char) (blocks : List DiffBlock) :
    List Char × List BlockResult :=
  let located := locateAll contentLF blocks
  let content := (sortByIndexDesc located).foldl spliceOne contentLF
  let results := blocks.enum.map (fun p =>
    match locateBlock contentLF p.1 p.2 with
    | some m => { success := true, matchedAtLine := some m.matchedAtLine }
    | none => { success := false, matchedAtLine := none })
  (content, results)

/-- Result of one `code_apply_diff` call. -/
inductive ApplyDiffResult where
  | errMissingDiff
  | errFileNotExist
  | errParse (msg : String)
  | errNoBlocks
  | errAllFailed (failCount : Nat)
  | noChangesNeeded
  | applied (successCount totalCount : Nat) (results : List BlockResult)
      (finalContent : List Char)
  deriving DecidableEq, Repr

/-- `createCodeApplyDiffTool.execute` on a resolved path whose target file
state is `file`: empty diff and missing file are rejected first, then the
diff is parsed (access happens before parsing), the file is read, all
blocks are applied; zero successes is an error without a write; a final
content identical to the raw content reports "no changes needed" without
a write; otherwise the restored content is written and the call reports
`successCount/totalCount` with the per-block results. -/
def codeApplyDiffExecute (file : Option (List Char)) (diff : List Char) :
    ApplyDiffResult × Option (List Char) × List FsEvent :=
  if trimJs diff = [] then (.errMissingDiff, file, [])
  else
    match file with
    | none => (.errFileNotExist, none, [.access])
    | some raw =>
      match parseDiffBlocks diff with
      | .error e => (.errParse e, some raw, [.access])
      | .ok blocks =>
        if blocks = [] then (.errNoBlocks, some raw, [.access])
        else
          let originalEol := detectLineEnding raw
          let contentLF := normalizeToLF raw
          let applied := applyAllBlocks contentLF blocks
          let successCount := (applied.2.filter (fun r => r.success)).length
          let failCount := (applied.2.filter (fun r => !r.success)).length
          if successCount = 0 then
            (.errAllFailed failCount, some raw, [.access, .read])
          else
            let finalContent := restoreLineEnding applied.1 originalEol
            if finalContent = raw then (.noChangesNeeded, some raw, [.access, .read])
            else
              (.applied successCount blocks.length applied.2 finalContent,
                some finalContent, [.access, .read, .write])

theorem substTemplate_dollar_pair (m b a : List Char) (t : List Char) :
    substTemplate m b a ('$' :: '$' :: t) = '$' :: substTemplate m b a t := by
  rfl

/-- The template `"$$$$"` is `$`-processed to `"$$"` regardless of the
match context — the evaluation behind `escapeDollars`. -/
theorem substTemplate_two_pairs (m b a : List Char) :
    substTemplate m b a ('$' :: '$' :: '$' :: '$' :: []) = '$' :: '$' :: [] := by
  rfl

theorem substTemplate_cons_ne (m b a : List Char) (c : Char) (t : List Char)
    (h : c ≠ '$') : substTemplate m b a (c :: t) = c :: substTemplate m b a t := by
  rw [substTemplate.eq_def]
  split
  · rename_i heq
    cases heq
  · rename_i heq
    injection heq with h1 h2
    exact absurd h1 h
  · rename_i heq
    injection heq with h1 h2
    rw [← h1, ← h2]

/-- `$`-processing the escaped replacement recovers it verbatim, whatever
the match context. -/
theorem substTemplate_escapeDollars (m b a : List Char) :
    ∀ t, substTemplate m b a (escapeDollars t) = t := by
  intro t
  induction t with
  | nil => rfl
  | cons c t ih =>
    by_cases hc : c = dollarChar
    · subst hc
      show substTemplate m b a (escapeDollars (dollarChar :: t)) = _
      rw [escapeDollars, if_pos rfl]
      have hd : dollarChar = '$' := by decide
      rw [hd, substTemplate_dollar_pair, ih]
    · rw [escapeDollars, if_neg hc, substTemplate_cons_ne m b a c _ (by
        intro hcontra
        exact hc (by rw [hcontra]; decide)), ih]

/-- A replacement containing no `$` is `$`-processed to itself. -/
theorem substTemplate_no_dollar (m b a : List Char) :
    ∀ t, t.contains '$' = false → substTemplate m b a t = t := by
  intro t
  induction t with
  | nil => intro _; rfl
  | cons c t ih =>
    intro h
    simp only [List.contains_cons, Bool.or_eq_false_iff, beq_eq_false_iff_ne] at h
    rw [substTemplate_cons_ne m b a c t (Ne.symm h.1), ih h.2]

/-- When `$`-processing of the template is the constant `C`, templated
replace-all is verbatim replace-all with `C`. -/
theorem replaceAllTemplAux_const (orig pat template C : List Char)
    (hconst : ∀ m b a, substTemplate m b a template = C) :
    ∀ fuel i, replaceAllTemplAux orig pat template fuel i
      = replaceAllVerbatimAux orig pat C fuel i := by
  intro fuel
  induction fuel with
  | zero => intro i; rfl
  | succ fuel ih =>
    intro i
    rw [replaceAllTemplAux, replaceAllVerbatimAux]
    cases hidx : indexOfFrom orig pat i with
    | none => simp only [hidx]
    | some j => simp only [hidx, hconst, ih]

/-- `safeLiteralReplace` equals plain verbatim replace-all: the `$`
escaping exactly cancels the `$`-template processing of JS `replaceAll`,
so the replacement text is copied as an opaque character sequence. -/
theorem safeLiteralReplace_eq_verbatim (str old new : List Char) :
    safeLiteralReplace str old new = replaceAllVerbatim str old new := by
  by_cases h0 : old = []
  · unfold safeLiteralReplace replaceAllVerbatim
    rw [if_pos (Or.inl h0), if_pos h0]
  · by_cases h1 : indexOfList str old = none
    · have hif : indexOfFrom str old 0 = none := by
        unfold indexOfFrom
        rw [List.drop_zero, h1]
        rfl
      unfold safeLiteralReplace replaceAllVerbatim
      rw [if_pos (Or.inr h1), if_neg h0]
      simp [replaceAllVerbatimAux, hif]
    · have hnor : ¬(old = [] ∨ indexOfList str old = none) := by
        intro hor
        cases hor with
        | inl hx => exact h0 hx
        | inr hx => exact h1 hx
      unfold safeLiteralReplace replaceAllVerbatim replaceAllTempl
      rw [if_neg hnor, if_neg h0, if_neg h0, if_neg h0]
      by_cases h2 : new.contains dollarChar = false
      · rw [if_pos h2]
        exact replaceAllTemplAux_const str old new new
          (fun m b a => substTemplate_no_dollar m b a new (by
            have hd : dollarChar = '$' := by decide
            rw [hd] at h2
            exact h2)) _ _
      · rw [if_neg h2]
        exact replaceAllTemplAux_const str old (escapeDollars new) new
          (fun m b a => substTemplate_escapeDollars m b a new) _ _

/-- C1: in single-edit mode, when the exact literal (non-overlapping)
occurrence count of the search text in the LF-normalized content equals
`expectedOccurrences`, the resolver commits via literal (non-regex)
substitution replacing all those occurrences; the replacement text is
copied verbatim (even when it contains back-reference-like sequences such
as `$&` or `$1`), and the relaxed strategies are not consulted — the
outcome is fully determined without them. -/
theorem c1_exact_literal_commit (contentLF oldLF newLF : List Char) (expectedCount : Nat)
    (hcount : countOccurrences contentLF oldLF = expectedCount) :
    resolveMatch contentLF oldLF newLF expectedCount
      = .committed (replaceAllVerbatim contentLF oldLF newLF) .exact := by
  unfold resolveMatch
  rw [if_pos hcount, safeLiteralReplace_eq_verbatim]

theorem c1_exact_literal_commit_witness :
    countOccurrences ("ab".data) ("a".data) = 1 ∧
    resolveMatch ("ab".data) ("a".data) ("$&$1x".data) 1
      = .committed (replaceAllVerbatim ("ab".data) ("a".data) ("$&$1x".data)) .exact ∧
    replaceAllVerbatim ("ab".data) ("a".data) ("$&$1x".data) = ("$&$1xb".data) :=
  ⟨by decide, c1_exact_literal_commit ("ab".data) ("a".data) ("$&$1x".data) 1 (by decide),
    by decide⟩

/-- C3: in single-edit mode, when no strategy's match count equals
`expectedOccurrences`, the operation fails and the diagnostic is exactly:
"no match found" iff all three strategies count zero; an exact-count
mismatch naming the exact count iff the exact count is nonzero; otherwise
a mismatch naming both relaxed counts. -/
theorem c3_error_taxonomy (contentLF oldLF newLF : List Char) (expectedCount : Nat)
    (hx : countOccurrences contentLF oldLF ≠ expectedCount)
    (hw : countRegexMatches (buildWhitespaceTolerantRegex oldLF) contentLF ≠ expectedCount)
    (ht : countRegexMatches (buildTokenRegex oldLF) contentLF ≠ expectedCount) :
    resolveMatch contentLF oldLF newLF expectedCount =
      if countOccurrences contentLF oldLF = 0 ∧
          countRegexMatches (buildWhitespaceTolerantRegex oldLF) contentLF = 0 ∧
          countRegexMatches (buildTokenRegex oldLF) contentLF = 0 then
        .errNoMatch
      else if 0 < countOccurrences contentLF oldLF then
        .errExactMismatch (countOccurrences contentLF oldLF)
      else
        .errRelaxedMismatch (countRegexMatches (buildWhitespaceTolerantRegex oldLF) contentLF)
          (countRegexMatches (buildTokenRegex oldLF) contentLF) := by
  unfold resolveMatch
  rw [if_neg hx, if_neg hw, if_neg ht]

theorem c3_error_taxonomy_witness :
    resolveMatch ("foo();\nfoo();\nfoo();\n".data) ("foo();".data) ("bar();".data) 1
      = .errExactMismatch 3 :=
  (c3_error_taxonomy ("foo();\nfoo();\nfoo();\n".data) ("foo();".data) ("bar();".data) 1
    (by decide) (by decide) (by decide)).trans (by decide)

/-- C8: create-new-file mode (empty `old_string`): when the target exists
the call fails with "already exists" and performs no write; when it does
not exist, `new_string` is written verbatim as the entire file content,
bypassing match resolution entirely. -/
theorem c8_create_mode (file : Option (List Char)) (new : List Char) (e : Option Int) :
    (∀ c, file = some c →
      codeEditExecute file [] new e = (.errAlreadyExists, some c, [.access])) ∧
    (file = none →
      codeEditExecute file [] new e
        = (.createdFile new, some new, [.access, .mkdir, .write])) := by
  constructor
  · intro c hc
    subst hc
    rfl
  · intro hc
    subst hc
    rfl

theorem c8_create_mode_witness :
    codeEditExecute (some ("old content".data)) [] ("new content".data) none
      = (.errAlreadyExists, some ("old content".data), [.access]) ∧
    codeEditExecute none [] ("export const hello = 1;\n".data) none
      = (.createdFile ("export const hello = 1;\n".data),
          some ("export const hello = 1;\n".data), [.access, .mkdir, .write]) :=
  ⟨(c8_create_mode (some ("old content".data)) ("new content".data) none).1 _ rfl,
    (c8_create_mode none ("export const hello = 1;\n".data) none).2 rfl⟩

/-- C9 counterexample: a single-edit request whose search text equals its
replacement text is rejected, but only *after* the target file has been
read — the event trace of the call contains a read, contradicting
"no read … of the target file occurs". -/
theorem c9_counterexample :
    codeEditExecute (some ("const x = 1;\n".data)) ("const x = 1;".data)
        ("const x = 1;".data) none
      = (.errIdentical, some ("const x = 1;\n".data), [.access, .read]) ∧
    FsEvent.read ∈ (codeEditExecute (some ("const x = 1;\n".data)) ("const x = 1;".data)
        ("const x = 1;".data) none).2.2 := by
  exact ⟨by decide, by decide⟩

/-- C9 (amended): a single-edit request (non-empty search text, existing
file) whose search text equals its replacement text after line-ending
normalization is rejected as a no-op before any *write*: the file is read
first, but its state is unchanged and the trace contains no write. -/
theorem c9_identical_rejected (raw old new : List Char) (e : Option Int)
    (h0 : old ≠ []) (h : normalizeToLF old = normalizeToLF new) :
    codeEditExecute (some raw) old new e
      = (.errIdentical, some raw, [.access, .read]) := by
  simp only [codeEditExecute, codeEditExecuteCore]
  rw [if_neg h0, if_pos h]

theorem c9_identical_rejected_witness :
    codeEditExecute (some ("a\n".data)) ("b".data) ("b".data) none
      = (.errIdentical, some ("a\n".data), [.access, .read]) :=
  c9_identical_rejected ("a\n".data) ("b".data) ("b".data) none (by decide) rfl

/-- C10: the effective expected occurrence count is
`max(1, expected_replacements ?? 1)`: it defaults to 1 when absent, a
supplied value `≤ 1` (in particular 0 or negative) is silently clamped to
1 — the call behaves exactly as with the default, not rejected — and a
value `≥ 1` is used as is. -/
theorem c10_expected_clamp (file : Option (List Char)) (old new : List Char) (v : Int) :
    effectiveExpected none = 1 ∧
    (v ≤ 1 → effectiveExpected (some v) = 1) ∧
    (1 ≤ v → effectiveExpected (some v) = v.toNat) ∧
    (v ≤ 1 → codeEditExecute file old new (some v) = codeEditExecute file old new none) := by
  refine ⟨rfl, ?_, ?_, ?_⟩
  · intro hv
    unfold effectiveExpected
    simp [max_eq_left hv]
  · intro hv
    unfold effectiveExpected
    simp [max_eq_right hv]
  · intro hv
    unfold codeEditExecute
    have h1 : effectiveExpected (some v) = effectiveExpected none := by
      unfold effectiveExpected
      simp [max_eq_left hv]
    rw [h1]

theorem c10_expected_clamp_witness :
    codeEditExecute (some ("foo();\n".data)) ("foo();".data) ("bar();".data) (some 0)
      = codeEditExecute (some ("foo();\n".data)) ("foo();".data) ("bar();".data) none ∧
    effectiveExpected (some 0) = 1 ∧
    effectiveExpected (some (-5)) = 1 :=
  ⟨(c10_expected_clamp (some ("foo();\n".data)) ("foo();".data) ("bar();".data) 0).2.2.2
      (by decide),
    (c10_expected_clamp none [] [] 0).2.1 (by decide),
    (c10_expected_clamp none [] [] (-5)).2.1 (by decide)⟩

/-- Every CR is immediately followed by LF (no lone `'\r'`). -/
def noLoneCR : List Char → Bool
  | [] => true
  | '\r' :: '\n' :: t => noLoneCR t
  | '\r' :: _ => false
  | _ :: t => noLoneCR t

/-- Every LF is immediately preceded by CR (no lone `'\n'`). -/
def noLoneLF : List Char → Bool
  | [] => true
  | '\r' :: '\n' :: t => noLoneLF t
  | '\n' :: _ => false
  | _ :: t => noLoneLF t

theorem normalizeToLF_cons_ne (c : Char) (t : List Char) (h : c ≠ '\r') :
    normalizeToLF (c :: t) = c :: normalizeToLF t := by
  rw [normalizeToLF.eq_def]
  split
  · rename_i heq
    cases heq
  · rename_i heq
    injection heq with h1 h2
    exact absurd h1 h
  · rename_i heq
    injection heq with h1 h2
    rw [← h1, ← h2]

theorem normalizeToLF_cr_cons_ne (c2 : Char) (t2 : List Char) (h : c2 ≠ '\n') :
    normalizeToLF ('\r' :: c2 :: t2) = '\r' :: normalizeToLF (c2 :: t2) := by
  rw [normalizeToLF.eq_def]
  split
  · rename_i heq
    cases heq
  · rename_i heq
    injection heq with h1 h2
    injection h2 with h3 h4
    exact absurd h3 h
  · rename_i heq
    injection heq with h1 h2
    rw [← h1, ← h2]

theorem restoreCRLF_cons_ne (c : Char) (t : List Char) (h : c ≠ '\n') :
    restoreCRLF (c :: t) = c :: restoreCRLF t := by
  rw [restoreCRLF.eq_def]
  split
  · rename_i heq
    cases heq
  · rename_i heq
    injection heq with h1 h2
    exact absurd h1 h
  · rename_i heq
    injection heq with h1 h2
    rw [← h1, ← h2]

theorem noLoneCR_cons_ne (c : Char) (t : List Char) (h : c ≠ '\r') :
    noLoneCR (c :: t) = noLoneCR t := by
  rw [noLoneCR.eq_def]
  split
  · rename_i heq
    cases heq
  · rename_i heq
    injection heq with h1 h2
    exact absurd h1 h
  · rename_i heq
    injection heq with h1 h2
    exact absurd h1 h
  · rename_i heq
    injection heq with h1 h2
    rw [← h2]

theorem noLoneCR_cr_cons_ne (c2 : Char) (t2 : List Char) (h : c2 ≠ '\n') :
    noLoneCR ('\r' :: c2 :: t2) = false := by
  rw [noLoneCR.eq_def]
  split
  · rename_i heq
    cases heq
  · rename_i heq
    injection heq with h1 h2
    injection h2 with h3 h4
    exact absurd h3 h
  · rfl
  · rename_i hne heq
    injection heq with h1 h2
    exact absurd h1.symm hne

theorem noLoneLF_cons_ne (c : Char) (t : List Char) (hr : c ≠ '\r') (hn : c ≠ '\n') :
    noLoneLF (c :: t) = noLoneLF t := by
  rw [noLoneLF.eq_def]
  split
  · rename_i heq
    cases heq
  · rename_i heq
    injection heq with h1 h2
    exact absurd h1 hr
  · rename_i heq
    injection heq with h1 h2
    exact absurd h1 hn
  · rename_i heq
    injection heq with h1 h2
    rw [← h2]

theorem containsCRLF_cons_ne (c : Char) (t : List Char) (h : c ≠ '\r') :
    containsCRLF (c :: t) = containsCRLF t := by
  rw [containsCRLF.eq_def]
  split
  · rename_i heq
    cases heq
  · rename_i heq
    injection heq with h1 h2
    exact absurd h1 h
  · rename_i heq
    injection heq with h1 h2
    rw [← h2]

theorem containsCRLF_cr_cons_ne (c2 : Char) (t2 : List Char) (h : c2 ≠ '\n') :
    containsCRLF ('\r' :: c2 :: t2) = containsCRLF (c2 :: t2) := by
  rw [containsCRLF.eq_def]
  split
  · rename_i heq
    cases heq
  · rename_i heq
    injection heq with h1 h2
    injection h2 with h3 h4
    exact absurd h3 h
  · rename_i heq
    injection heq with h1 h2
    rw [← h2]

/-- CRLF restoration inverts normalization on content whose CRs and LFs
all come in `"\r\n"` pairs (bounded induction on the length). -/
theorem crlf_roundtrip_bounded : ∀ n (s : List Char), s.length ≤ n →
    noLoneCR s = true → noLoneLF s = true →
    restoreCRLF (normalizeToLF s) = s := by
  intro n
  induction n with
  | zero =>
    intro s hs _ _
    have hnil : s = [] := List.eq_nil_of_length_eq_zero (Nat.le_zero.mp hs)
    subst hnil
    rfl
  | succ n ih =>
    intro s hs h1 h2
    cases s with
    | nil => rfl
    | cons c t =>
      by_cases hc : c = '\r'
      · subst hc
        cases t with
        | nil => exact absurd h1 (by decide)
        | cons c2 t2 =>
          by_cases hc2 : c2 = '\n'
          · subst hc2
            have e1 : normalizeToLF ('\r' :: '\n' :: t2) = '\n' :: normalizeToLF t2 := rfl
            have e2 : restoreCRLF ('\n' :: normalizeToLF t2)
                = '\r' :: '\n' :: restoreCRLF (normalizeToLF t2) := rfl
            have hlen : t2.length ≤ n := by
              simp only [List.length_cons] at hs
              omega
            rw [e1, e2, ih t2 hlen h1 h2]
          · rw [noLoneCR_cr_cons_ne c2 t2 hc2] at h1
            exact absurd h1 (by decide)
      · by_cases hn : c = '\n'
        · subst hn
          have hfalse : noLoneLF ('\n' :: t) = false := rfl
          rw [hfalse] at h2
          exact absurd h2 (by decide)
        · rw [noLoneCR_cons_ne c t hc] at h1
          rw [noLoneLF_cons_ne c t hc hn] at h2
          have hlen : t.length ≤ n := by
            simp only [List.length_cons] at hs
            omega
          rw [normalizeToLF_cons_ne c t hc, restoreCRLF_cons_ne c _ hn,
            ih t hlen h1 h2]

/-- Normalization is the identity when no `"\r\n"` occurs at all. -/
theorem normalize_id_bounded : ∀ n (s : List Char), s.length ≤ n →
    containsCRLF s = false → normalizeToLF s = s := by
  intro n
  induction n with
  | zero =>
    intro s hs _
    have hnil : s = [] := List.eq_nil_of_length_eq_zero (Nat.le_zero.mp hs)
    subst hnil
    rfl
  | succ n ih =>
    intro s hs h1
    cases s with
    | nil => rfl
    | cons c t =>
      by_cases hc : c = '\r'
      · subst hc
        cases t with
        | nil => rfl
        | cons c2 t2 =>
          by_cases hc2 : c2 = '\n'
          · subst hc2
            have htrue : containsCRLF ('\r' :: '\n' :: t2) = true := rfl
            rw [htrue] at h1
            exact absurd h1 (by decide)
          · rw [containsCRLF_cr_cons_ne c2 t2 hc2] at h1
            have hlen : (c2 :: t2).length ≤ n := by
              simp only [List.length_cons] at hs ⊢
              omega
            rw [normalizeToLF_cr_cons_ne c2 t2 hc2, ih (c2 :: t2) hlen h1]
      · rw [containsCRLF_cons_ne c t hc] at h1
        have hlen : t.length ≤ n := by
          simp only [List.length_cons] at hs
          omega
        rw [normalizeToLF_cons_ne c t hc, ih t hlen h1]

/-- C6 counterexample: `"a\n\r\n"` contains no CR outside a CRLF pair
(the claim's hypothesis holds), yet restoring after normalization does not
round-trip — the lone `"\n"` is rewritten to `"\r\n"` because the file
also contains a CRLF pair and `detect` selects CRLF. -/
theorem c6_counterexample :
    noLoneCR ("a\n\r\n".data) = true ∧
    restoreLineEnding (normalizeToLF ("a\n\r\n".data)) (detectLineEnding ("a\n\r\n".data))
      ≠ ("a\n\r\n".data) := by
  exact ⟨by decide, by decide⟩

/-- C6 (amended): `detect` returns CRLF exactly when the raw content
contains at least one `"\r\n"` (and LF otherwise), and
`restore(normalize(raw), detect(raw)) = raw` for every raw content that
contains no CR except as part of a CRLF pair *and* — when a CRLF pair is
present — no LF except as part of a CRLF pair (uniform line endings). -/
theorem c6_roundtrip_amended (raw : List Char)
    (hcr : noLoneCR raw = true)
    (hlf : detectLineEnding raw = .lf ∨ noLoneLF raw = true) :
    restoreLineEnding (normalizeToLF raw) (detectLineEnding raw) = raw ∧
    (detectLineEnding raw = .crlf ↔ containsCRLF raw = true) := by
  constructor
  · cases hdet : detectLineEnding raw with
    | lf =>
      have hno : containsCRLF raw = false := by
        unfold detectLineEnding at hdet
        by_cases hb : containsCRLF raw = true
        · rw [if_pos hb] at hdet
          cases hdet
        · simpa using hb
      show normalizeToLF raw = raw
      exact normalize_id_bounded raw.length raw le_rfl hno
    | crlf =>
      have hnl : noLoneLF raw = true := by
        cases hlf with
        | inl h => rw [h] at hdet; cases hdet
        | inr h => exact h
      show restoreCRLF (normalizeToLF raw) = raw
      exact crlf_roundtrip_bounded raw.length raw le_rfl hcr hnl
  · unfold detectLineEnding
    by_cases hb : containsCRLF raw = true
    · rw [if_pos hb]
      simp [hb]
    · rw [if_neg hb]
      simp only [Bool.not_eq_true] at hb
      simp [hb]

theorem c6_roundtrip_amended_witness :
    restoreLineEnding (normalizeToLF ("a\r\nb".data)) (detectLineEnding ("a\r\nb".data))
      = ("a\r\nb".data) ∧
    restoreLineEnding (normalizeToLF ("x\ny".data)) (detectLineEnding ("x\ny".data))
      = ("x\ny".data) :=
  ⟨(c6_roundtrip_amended ("a\r\nb".data) (by decide) (Or.inr (by decide))).1,
    (c6_roundtrip_amended ("x\ny".data) (by decide) (Or.inl (by decide))).1⟩

/-- All-whitespace input produces no tokens: every run of `chunkRunsF` is
all-whitespace, so the token filter keeps nothing. -/
theorem wsTokens_all_ws_aux : ∀ fuel (s : List Char), s.all isJsWs = true →
    (chunkRunsF fuel s).filter (fun r => !(r.all isJsWs)) = [] := by
  intro fuel
  induction fuel with
  | zero => intro s _; cases s <;> rfl
  | succ fuel ih =>
    intro s hall
    cases s with
    | nil => rfl
    | cons c t =>
      have hc : isJsWs c = true := List.all_eq_true.mp hall c (List.mem_cons_self c t)
      rw [chunkRunsF, List.filter_cons]
      have hrun : ((c :: List.takeWhile (fun x => isJsWs x = isJsWs c) t).all isJsWs) = true := by
        apply List.all_eq_true.mpr
        intro x hx
        cases List.mem_cons.mp hx with
        | inl hxc => rw [hxc]; exact hc
        | inr hxt =>
          exact List.all_eq_true.mp hall x
            (List.mem_cons_of_mem c ((List.takeWhile_sublist _).subset hxt))
      rw [hrun]
      simp only [Bool.not_true]
      apply ih
      apply List.all_eq_true.mpr
      intro x hx
      exact List.all_eq_true.mp hall x
        (List.mem_cons_of_mem c ((List.dropWhile_sublist _).subset hx))

/-- C7 counterexample: an all-whitespace (non-empty) search text does
*not* give a never-matching whitespace-tolerant pattern — `" "` builds
`[\t ]+`, which matches the blank in `"a b"` once. -/
theorem c7_counterexample :
    (" ".data).all isJsWs = true ∧ (" ".data) ≠ [] ∧
    countRegexMatches (buildWhitespaceTolerantRegex (" ".data)) ("a b".data) = 1 := by
  exact ⟨by decide, by decide, by decide⟩

/-- C7 (amended): an empty search text yields a never-matching pattern
from *both* builders; an all-whitespace search text yields a
never-matching pattern from the token builder (the whitespace-tolerant
builder, however, then yields a pattern matching whitespace runs). -/
theorem c7_degenerate_search_patterns (s content : List Char) :
    (s = [] →
      countRegexMatches (buildWhitespaceTolerantRegex s) content = 0 ∧
      countRegexMatches (buildTokenRegex s) content = 0) ∧
    (s.all isJsWs = true → countRegexMatches (buildTokenRegex s) content = 0) := by
  constructor
  · intro hs
    subst hs
    exact ⟨rfl, rfl⟩
  · intro hall
    have htok : wsTokens s = [] := by
      unfold wsTokens chunkRuns
      exact wsTokens_all_ws_aux s.length s hall
    simp [buildTokenRegex, htok, countRegexMatches]

theorem c7_degenerate_search_patterns_witness :
    countRegexMatches (buildWhitespaceTolerantRegex []) ("a b".data) = 0 ∧
    countRegexMatches (buildTokenRegex []) ("a b".data) = 0 ∧
    countRegexMatches (buildTokenRegex (" ".data)) ("a b".data) = 0 :=
  ⟨((c7_degenerate_search_patterns [] ("a b".data)).1 rfl).1,
    ((c7_degenerate_search_patterns [] ("a b".data)).1 rfl).2,
    (c7_degenerate_search_patterns (" ".data) ("a b".data)).2 (by decide)⟩

theorem indexOfList_some (s pat : List Char) :
    ∀ i, indexOfList s pat = some i → pat <+: s.drop i := by
  induction s with
  | nil =>
    intro i h
    rw [indexOfList] at h
    by_cases hp : pat.isPrefixOf ([] : List Char)
    · rw [if_pos hp] at h
      injection h with h1
      subst h1
      exact List.isPrefixOf_iff_prefix.mp hp
    · rw [if_neg hp] at h
      cases h
  | cons c t ih =>
    intro i h
    rw [indexOfList] at h
    by_cases hp : pat.isPrefixOf (c :: t)
    · rw [if_pos hp] at h
      injection h with h1
      subst h1
      exact List.isPrefixOf_iff_prefix.mp hp
    · rw [if_neg hp] at h
      cases hj : indexOfList t pat with
      | none => rw [hj] at h; cases h
      | some j =>
        rw [hj] at h
        injection h with h1
        subst h1
        exact ih j hj

theorem indexOfList_none (s pat : List Char) :
    indexOfList s pat = none → ∀ i, ¬ pat <+: s.drop i := by
  induction s with
  | nil =>
    intro h i hpre
    rw [List.drop_nil] at hpre
    rw [indexOfList] at h
    rw [if_pos (List.isPrefixOf_iff_prefix.mpr (by
      rw [List.prefix_nil.mp hpre]))] at h
    cases h
  | cons c t ih =>
    intro h i hpre
    rw [indexOfList] at h
    by_cases hp : pat.isPrefixOf (c :: t)
    · rw [if_pos hp] at h
      cases h
    · rw [if_neg hp] at h
      cases i with
      | zero =>
        rw [List.drop_zero] at hpre
        exact hp (List.isPrefixOf_iff_prefix.mpr hpre)
      | succ j =>
        cases hj : indexOfList t pat with
        | none => exact ih hj j hpre
        | some k => rw [hj] at h; cases h

theorem infix_iff_exists_drop (pat s : List Char) :
    pat <:+: s ↔ ∃ i, pat <+: s.drop i := by
  constructor
  · rintro ⟨l, r, rfl⟩
    refine ⟨l.length, ?_⟩
    rw [List.append_assoc, List.drop_left]
    exact List.prefix_append pat r
  · rintro ⟨i, hpre⟩
    exact hpre.isInfix.trans (List.drop_suffix i s).isInfix

theorem indexOfList_ne_none_of_infix (s pat : List Char) (h : pat <:+: s) :
    indexOfList s pat ≠ none := by
  intro hnone
  obtain ⟨i, hpre⟩ := (infix_iff_exists_drop pat s).mp h
  exact indexOfList_none s pat hnone i hpre

theorem indexOfList_nil_of_ne (pat : List Char) (h : pat ≠ []) :
    indexOfList [] pat = none := by
  cases pat with
  | nil => exact absurd rfl h
  | cons c p => rfl

theorem countOccurrences_zero_iff (s pat : List Char) (h : pat ≠ []) :
    countOccurrences s pat = 0 ↔ indexOfList s pat = none := by
  unfold countOccurrences
  rw [if_neg h]
  rw [countOccAux]
  unfold indexOfFrom
  rw [List.drop_zero]
  cases hj : indexOfList s pat with
  | none => simp
  | some j => simp

theorem findMatchFrom_sound (segs : List Seg) (s : List Char) :
    ∀ i len, findMatchFrom segs s = some (i, len) →
      matchSegs segs (s.drop i) = some len := by
  induction s with
  | nil =>
    intro i len h
    rw [findMatchFrom] at h
    cases hm : matchSegs segs [] with
    | none => rw [hm] at h; cases h
    | some l0 =>
      rw [hm] at h
      injection h with h1
      injection h1 with h2 h3
      subst h2
      subst h3
      exact hm
  | cons c t ih =>
    intro i len h
    rw [findMatchFrom] at h
    cases hm : matchSegs segs (c :: t) with
    | some l0 =>
      rw [hm] at h
      injection h with h1
      injection h1 with h2 h3
      subst h2
      subst h3
      exact hm
    | none =>
      rw [hm] at h
      cases hr : findMatchFrom segs t with
      | none => rw [hr] at h; cases h
      | some r =>
        rw [hr] at h
        simp only [Option.map_some'] at h
        injection h with h1
        have h2 : r.1 + 1 = i := congrArg Prod.fst h1
        have h3 : r.2 = len := congrArg Prod.snd h1
        subst h2
        rw [List.drop_succ_cons]
        apply ih
        rw [hr, ← h3]

theorem splitNl_lf (t : List Char) : splitNl ('\n' :: t) = [] :: splitNl t := rfl

theorem splitNl_cons_ne (c : Char) (t : List Char) (h : c ≠ '\n') (h2 : List Char)
    (r : List (List Char)) (heq : splitNl t = h2 :: r) :
    splitNl (c :: t) = (c :: h2) :: r := by
  rw [splitNl.eq_def]
  split
  · rename_i hq
    cases hq
  · rename_i hq
    injection hq with hq1 hq2
    exact absurd hq1 h
  · rename_i c2 t2 hq
    injection hq with hq1 hq2
    rw [← hq1, ← hq2, heq]

theorem splitNl_ne_nil : ∀ s : List Char, splitNl s ≠ [] := by
  intro s
  induction s with
  | nil => simp [splitNl]
  | cons c t ih =>
    by_cases hc : c = '\n'
    · subst hc
      rw [splitNl_lf]
      simp
    · obtain ⟨h2, r, heq⟩ := List.exists_cons_of_ne_nil ih
      rw [splitNl_cons_ne c t hc h2 r heq]
      simp

theorem intercalNl_cons_of_ne_nil (l : List Char) (r : List (List Char)) (h : r ≠ []) :
    intercalNl (l :: r) = l ++ '\n' :: intercalNl r := by
  cases r with
  | nil => exact absurd rfl h
  | cons h2 r2 => rfl

theorem intercalNl_splitNl : ∀ s : List Char, intercalNl (splitNl s) = s := by
  intro s
  induction s with
  | nil => rfl
  | cons c t ih =>
    by_cases hc : c = '\n'
    · subst hc
      rw [splitNl_lf, intercalNl_cons_of_ne_nil [] (splitNl t) (splitNl_ne_nil t), ih]
      rfl
    · obtain ⟨h2, r, heq⟩ := List.exists_cons_of_ne_nil (splitNl_ne_nil t)
      rw [splitNl_cons_ne c t hc h2 r heq]
      cases r with
      | nil =>
        have ht : h2 = t := by
          rw [heq] at ih
          exact ih
        rw [show intercalNl ((c :: h2) :: ([] : List (List Char))) = c :: h2 from rfl, ht]
      | cons r1 rr =>
        rw [intercalNl_cons_of_ne_nil (c :: h2) (r1 :: rr) (by simp)]
        rw [heq] at ih
        rw [intercalNl_cons_of_ne_nil h2 (r1 :: rr) (by simp)] at ih
        rw [List.cons_append, ih]

theorem countNl_lf (t : List Char) : countNl ('\n' :: t) = countNl t + 1 := by
  simp [countNl, List.filter_cons]

theorem countNl_ne (c : Char) (t : List Char) (h : c ≠ '\n') :
    countNl (c :: t) = countNl t := by
  simp [countNl, List.filter_cons, h]

theorem splitNl_length : ∀ s : List Char, (splitNl s).length = countNl s + 1 := by
  intro s
  induction s with
  | nil => rfl
  | cons c t ih =>
    by_cases hc : c = '\n'
    · subst hc
      rw [splitNl_lf, countNl_lf]
      simp only [List.length_cons, ih]
    · obtain ⟨h2, r, heq⟩ := List.exists_cons_of_ne_nil (splitNl_ne_nil t)
      rw [splitNl_cons_ne c t hc h2 r heq, countNl_ne c t hc]
      rw [heq] at ih
      simpa using ih

theorem lineOfIndex_eq (s : List Char) (idx : Nat) :
    lineOfIndex s idx = countNl (s.take idx) + 1 :=
  splitNl_length (s.take idx)

theorem intercalNl_take_drop : ∀ (lines : List (List Char)) (k : Nat), 0 < k →
    k < lines.length →
    intercalNl lines = intercalNl (lines.take k) ++ '\n' :: intercalNl (lines.drop k) := by
  intro lines
  induction lines with
  | nil =>
    intro k h1 h2
    simp at h2
  | cons l rest ih =>
    intro k h1 h2
    cases k with
    | zero => exact absurd h1 (lt_irrefl 0)
    | succ k =>
      cases Nat.eq_zero_or_pos k with
      | inl hk0 =>
        subst hk0
        have hrest : rest ≠ [] := by
          intro hc
          rw [hc] at h2
          have hlen : ([l] : List (List Char)).length = 1 := rfl
          omega
        rw [intercalNl_cons_of_ne_nil l rest hrest]
        rfl
      | inr hkpos =>
        have h2' : k < rest.length := by
          have hlen : (l :: rest).length = rest.length + 1 := rfl
          omega
        have hrest : rest ≠ [] := by
          intro hc
          rw [hc] at h2'
          simp at h2'
        rw [intercalNl_cons_of_ne_nil l rest hrest, ih k hkpos h2',
          List.take_succ_cons, List.drop_succ_cons,
          intercalNl_cons_of_ne_nil l (rest.take k) (by
            intro hc
            have hlen := congrArg List.length hc
            rw [List.length_take] at hlen
            simp only [List.length_nil] at hlen
            omega)]
        simp [List.cons_append, List.append_assoc]

theorem intercalNl_take_prefix : ∀ (l : List (List Char)) (m : Nat),
    intercalNl (l.take m) <+: intercalNl l := by
  intro l
  induction l with
  | nil =>
    intro m
    rw [List.take_nil]
  | cons x r ih =>
    intro m
    cases m with
    | zero => exact List.nil_prefix
    | succ m =>
      rw [List.take_succ_cons]
      cases r with
      | nil =>
        rw [List.take_nil]
      | cons r1 rr =>
        rw [intercalNl_cons_of_ne_nil x (r1 :: rr) (by simp)]
        cases hm : (r1 :: rr).take m with
        | nil =>
          exact ⟨'\n' :: intercalNl (r1 :: rr), rfl⟩
        | cons a b =>
          obtain ⟨tail, htail⟩ := ih m
          rw [hm] at htail
          exact ⟨tail, by
            rw [show intercalNl (x :: a :: b) = x ++ '\n' :: intercalNl (a :: b) from rfl,
              List.append_assoc, List.cons_append, htail]⟩

theorem drop_linePrefixLen (lines : List (List Char)) (k : Nat) (h1 : 0 < k)
    (h2 : k < lines.length) :
    (intercalNl lines).drop (linePrefixLen lines k) = intercalNl (lines.drop k) := by
  rw [intercalNl_take_drop lines k h1 h2]
  unfold linePrefixLen
  rw [if_neg (Nat.pos_iff_ne_zero.mp h1)]
  rw [show intercalNl (lines.take k) ++ '\n' :: intercalNl (lines.drop k)
      = (intercalNl (lines.take k) ++ ['\n']) ++ intercalNl (lines.drop k) from by simp]
  rw [show (intercalNl (lines.take k)).length + 1
      = (intercalNl (lines.take k) ++ ['\n']).length from by simp]
  exact List.drop_left _ _

theorem prefix_drop_trans (w z pat : List Char) (i : Nat) (h1 : w <+: z)
    (h2 : pat <+: w.drop i) : pat <+: z.drop i := by
  obtain ⟨tail, rfl⟩ := h1
  by_cases hi : i ≤ w.length
  · rw [List.drop_append_of_le_length hi]
    exact h2.trans (List.prefix_append _ _)
  · have hnil : w.drop i = [] := List.drop_eq_nil_of_le (by omega)
    rw [hnil] at h2
    rw [List.prefix_nil.mp h2]
    exact List.nil_prefix

theorem findSearchHinted_sound (contentLF searchLF : List Char) (hint : Option Nat)
    (hne : searchLF ≠ []) (idx line : Nat)
    (h : findSearchHinted contentLF searchLF hint = some (idx, line)) :
    searchLF <+: contentLF.drop idx ∧ line = lineOfIndex contentLF idx := by
  cases hint with
  | none => cases h
  | some n =>
    simp only [findSearchHinted] at h
    by_cases hn : 0 < n
    · rw [if_pos hn] at h
      cases hq : indexOfList (hintWindowContent (splitNl contentLF) n) searchLF with
      | none => rw [hq] at h; cases h
      | some localIdx =>
        rw [hq] at h
        injection h with h1
        have hidx : linePrefixLen (splitNl contentLF) (hintWindowStart n) + localIdx = idx :=
          congrArg Prod.fst h1
        have hline : lineOfIndex contentLF
            (linePrefixLen (splitNl contentLF) (hintWindowStart n) + localIdx) = line :=
          congrArg Prod.snd h1
        subst hidx
        refine ⟨?_, hline.symm⟩
        have hwpre : searchLF <+: (hintWindowContent (splitNl contentLF) n).drop localIdx :=
          indexOfList_some _ _ _ hq
        by_cases hklen : hintWindowStart n < (splitNl contentLF).length
        · by_cases hk0 : hintWindowStart n = 0
          · have hwin : hintWindowContent (splitNl contentLF) n <+: contentLF := by
              unfold hintWindowContent
              rw [hk0, List.drop_zero]
              have hp := intercalNl_take_prefix (splitNl contentLF)
                (min (splitNl contentLF).length (n - 1 + windowSize) - 0)
              rw [intercalNl_splitNl] at hp
              exact hp
            have hstep := prefix_drop_trans _ _ _ localIdx hwin hwpre
            rw [hk0]
            simpa [linePrefixLen, intercalNl] using hstep
          · have hkpos : 0 < hintWindowStart n := Nat.pos_of_ne_zero hk0
            have hdrop : contentLF.drop (linePrefixLen (splitNl contentLF) (hintWindowStart n))
                = intercalNl ((splitNl contentLF).drop (hintWindowStart n)) := by
              have := drop_linePrefixLen (splitNl contentLF) (hintWindowStart n) hkpos hklen
              rw [intercalNl_splitNl] at this
              exact this
            have hwin : hintWindowContent (splitNl contentLF) n
                <+: intercalNl ((splitNl contentLF).drop (hintWindowStart n)) := by
              unfold hintWindowContent
              exact intercalNl_take_prefix _ _
            have hstep := prefix_drop_trans _ _ _ localIdx hwin hwpre
            rw [← hdrop, List.drop_drop] at hstep
            exact hstep
        · have hdnil : (splitNl contentLF).drop (hintWindowStart n) = [] :=
            List.drop_eq_nil_of_le (Nat.le_of_not_lt hklen)
          have hw : hintWindowContent (splitNl contentLF) n = [] := by
            unfold hintWindowContent
            rw [hdnil, List.take_nil]
            rfl
          rw [hw, indexOfList_nil_of_ne searchLF hne] at hq
          cases hq
    · rw [if_neg hn] at h
      cases h

theorem findSearchHinted_none_of_no_occurrence (contentLF searchLF : List Char)
    (hint : Option Nat) (hne : searchLF ≠ [])
    (h0 : indexOfList contentLF searchLF = none) :
    findSearchHinted contentLF searchLF hint = none := by
  cases hval : findSearchHinted contentLF searchLF hint with
  | none => rfl
  | some r =>
    obtain ⟨idx, line⟩ := r
    have hpre := (findSearchHinted_sound contentLF searchLF hint hne idx line hval).1
    exact absurd hpre (indexOfList_none contentLF searchLF h0 idx)

theorem chunkRuns_ne_nil (s : List Char) (h : s ≠ []) : chunkRuns s ≠ [] := by
  cases s with
  | nil => exact absurd rfl h
  | cons c t =>
    intro hc
    rw [chunkRuns] at hc
    rw [show (c :: t).length = t.length + 1 from rfl] at hc
    rw [chunkRunsF] at hc
    cases hc

/-- Soundness and failure characterization of the windowed locator:
it returns `none` exactly when the search text has no exact occurrence
anywhere *and* the whitespace-tolerant pattern has no match anywhere
(so token tolerance is never what decides success); and any returned
index is a genuine exact occurrence or whitespace-tolerant match at that
index, with the 1-indexed line computed from it. -/
theorem findSearchContent_sound (contentLF searchLF : List Char) (hint : Option Nat)
    (hne : searchLF ≠ []) :
    (findSearchContent contentLF searchLF hint = none ↔
      (countOccurrences contentLF searchLF = 0 ∧
        findMatchFrom (wsSegsOf searchLF) contentLF = none)) ∧
    (∀ idx line, findSearchContent contentLF searchLF hint = some (idx, line) →
      line = lineOfIndex contentLF idx ∧
      (searchLF <+: contentLF.drop idx ∨
        (matchSegs (wsSegsOf searchLF) (contentLF.drop idx)).isSome)) := by
  constructor
  · constructor
    · intro hnone
      unfold findSearchContent at hnone
      cases hh : findSearchHinted contentLF searchLF hint with
      | some r => rw [hh] at hnone; cases hnone
      | none =>
        rw [hh] at hnone
        cases hq : indexOfList contentLF searchLF with
        | some i => rw [hq] at hnone; cases hnone
        | none =>
          rw [hq] at hnone
          refine ⟨(countOccurrences_zero_iff contentLF searchLF hne).mpr hq, ?_⟩
          by_cases hcr : chunkRuns searchLF = []
          · exact absurd hcr (chunkRuns_ne_nil searchLF hne)
          · rw [if_neg hcr] at hnone
            cases hm : findMatchFrom (wsSegsOf searchLF) contentLF with
            | none => rfl
            | some r => rw [hm] at hnone; cases hnone
    · rintro ⟨h0, hws⟩
      have hq : indexOfList contentLF searchLF = none :=
        (countOccurrences_zero_iff contentLF searchLF hne).mp h0
      unfold findSearchContent
      rw [findSearchHinted_none_of_no_occurrence contentLF searchLF hint hne hq, hq, hws]
      by_cases hcr : chunkRuns searchLF = []
      · rw [if_pos hcr]
      · rw [if_neg hcr]
  · intro idx line h
    unfold findSearchContent at h
    cases hh : findSearchHinted contentLF searchLF hint with
    | some r =>
      rw [hh] at h
      injection h with h1
      subst h1
      have hs := findSearchHinted_sound contentLF searchLF hint hne idx line hh
      exact ⟨hs.2, Or.inl hs.1⟩
    | none =>
      rw [hh] at h
      cases hq : indexOfList contentLF searchLF with
      | some i =>
        rw [hq] at h
        injection h with h1
        have hi : i = idx := congrArg Prod.fst h1
        have hl : lineOfIndex contentLF i = line := congrArg Prod.snd h1
        subst hi
        exact ⟨hl.symm, Or.inl (indexOfList_some contentLF searchLF i hq)⟩
      | none =>
        rw [hq] at h
        by_cases hcr : chunkRuns searchLF = []
        · rw [if_pos hcr] at h
          cases h
        · rw [if_neg hcr] at h
          cases hm : findMatchFrom (wsSegsOf searchLF) contentLF with
          | none => rw [hm] at h; cases h
          | some r =>
            rw [hm] at h
            injection h with h1
            have hi : r.1 = idx := congrArg Prod.fst h1
            have hl : lineOfIndex contentLF r.1 = line := congrArg Prod.snd h1
            subst hi
            refine ⟨hl.symm, Or.inr ?_⟩
            rw [findMatchFrom_sound (wsSegsOf searchLF) contentLF r.1 r.2 (by
              rw [hm])]
            rfl

/-- C5: the windowed locator tries, in order: (1) with a positive line
hint, exact literal search inside the ±30-line window only, translating
the local offset to a global offset and a 1-indexed matched line (third
conjunct); (2) exact literal search anywhere; (3) whitespace-tolerant
search anywhere — and nothing else: it fails exactly when there is no
exact occurrence and no whitespace-tolerant match (first conjunct), so a
hunk whose search body matches only under token tolerance is marked
failed; every reported index is a genuine exact or whitespace-tolerant
match position with its 1-indexed line (second conjunct). -/
theorem c5_windowed_locator (contentLF searchLF : List Char) (hint : Option Nat)
    (hne : searchLF ≠ []) :
    (findSearchContent contentLF searchLF hint = none ↔
      (countOccurrences contentLF searchLF = 0 ∧
        findMatchFrom (wsSegsOf searchLF) contentLF = none)) ∧
    (∀ idx line, findSearchContent contentLF searchLF hint = some (idx, line) →
      line = countNl (contentLF.take idx) + 1 ∧
      (searchLF <+: contentLF.drop idx ∨
        (matchSegs (wsSegsOf searchLF) (contentLF.drop idx)).isSome)) ∧
    (∀ n localIdx, hint = some n → 0 < n →
      indexOfList (hintWindowContent (splitNl contentLF) n) searchLF = some localIdx →
      findSearchContent contentLF searchLF hint =
        some (linePrefixLen (splitNl contentLF) (hintWindowStart n) + localIdx,
          lineOfIndex contentLF
            (linePrefixLen (splitNl contentLF) (hintWindowStart n) + localIdx))) := by
  refine ⟨(findSearchContent_sound contentLF searchLF hint hne).1, ?_, ?_⟩
  · intro idx line h
    have hs := (findSearchContent_sound contentLF searchLF hint hne).2 idx line h
    rw [lineOfIndex_eq] at hs
    exact hs
  · intro n localIdx hh hn hq
    subst hh
    have hh1 : findSearchHinted contentLF searchLF (some n) =
        some (linePrefixLen (splitNl contentLF) (hintWindowStart n) + localIdx,
          lineOfIndex contentLF
            (linePrefixLen (splitNl contentLF) (hintWindowStart n) + localIdx)) := by
      simp only [findSearchHinted]
      rw [if_pos hn, hq]
    unfold findSearchContent
    rw [hh1]

theorem c5_windowed_locator_witness :
    findSearchContent ("a\nb".data) ("a b".data) none = none ∧
    countRegexMatches (buildTokenRegex ("a b".data)) ("a\nb".data) = 1 ∧
    findSearchContent ("l1\nl2\nl3".data) ("l2".data) (some 2) = some (3, 2) :=
  ⟨((c5_windowed_locator ("a\nb".data) ("a b".data) none (by decide)).1).mpr
      ⟨by decide, by decide⟩,
    by decide,
    ((c5_windowed_locator ("l1\nl2\nl3".data) ("l2".data) (some 2) (by decide)).2.2 2 3 rfl
      (by decide) (by decide)).trans (by decide)⟩

theorem snd_mem_of_mem_enumFrom {α : Type} :
    ∀ (l : List α) (n : Nat) (p : Nat × α), p ∈ l.enumFrom n → p.2 ∈ l := by
  intro l
  induction l with
  | nil => intro n p h; cases h
  | cons x t ih =>
    intro n p h
    rw [List.enumFrom] at h
    cases List.mem_cons.mp h with
    | inl hp => rw [hp]; exact List.mem_cons_self x t
    | inr hp => exact List.mem_cons_of_mem x (ih (n + 1) p hp)

theorem snd_mem_of_mem_enum {α : Type} (l : List α) (p : Nat × α) (h : p ∈ l.enum) :
    p.2 ∈ l :=
  snd_mem_of_mem_enumFrom l 0 p h

/-- Facts about one located match: positive length, and its index is a
genuine exact or whitespace-tolerant match of its block's normalized
search body in the *original* content. -/
theorem locateAll_mem_sound (contentLF : List Char) (blocks : List DiffBlock)
    (m : Located) (hm : m ∈ locateAll contentLF blocks) :
    1 ≤ m.matchLength ∧
    ∃ b, b ∈ blocks ∧ m.matchLength = (normalizeToLF b.searchContent).length ∧
      (normalizeToLF b.searchContent <+: contentLF.drop m.index ∨
        (matchSegs (wsSegsOf (normalizeToLF b.searchContent)) (contentLF.drop m.index)).isSome) := by
  unfold locateAll at hm
  obtain ⟨p, hp, heq⟩ := List.mem_filterMap.mp hm
  have hb : p.2 ∈ blocks := snd_mem_of_mem_enum blocks p hp
  unfold locateBlock at heq
  by_cases hse : normalizeToLF p.2.searchContent = []
  · rw [if_pos hse] at heq
    cases heq
  · rw [if_neg hse] at heq
    cases hf : findSearchContent contentLF (normalizeToLF p.2.searchContent) p.2.startLine with
    | none => rw [hf] at heq; cases heq
    | some r =>
      rw [hf] at heq
      injection heq with h1
      subst h1
      refine ⟨?_, p.2, hb, rfl, ?_⟩
      · simp only []
        exact List.length_pos.mpr hse
      · have hs := (findSearchContent_sound contentLF (normalizeToLF p.2.searchContent)
          p.2.startLine hse).2 r.1 r.2 (by rw [hf])
        exact hs.2

/-- C2 counterexample: two parsed hunks whose search bodies locate at the
same offset 0 of `"ab"`.  Both report success, the splices are *not*
pairwise "strictly before" (the second splice starts inside the first
splice's region), and indeed the second splice destroys the first one's
replacement: the final content is `"Y"`, in which the first block's
replacement `"X"` does not occur. -/
theorem c2_counterexample :
    (applyAllBlocks ("ab".data)
        [⟨none, ("ab".data), ("X".data)⟩, ⟨none, ("a".data), ("Y".data)⟩]).1 = ("Y".data) ∧
    (applyAllBlocks ("ab".data)
        [⟨none, ("ab".data), ("X".data)⟩, ⟨none, ("a".data), ("Y".data)⟩]).2
      = [⟨true, some 1⟩, ⟨true, some 1⟩] ∧
    ¬ List.Pairwise (fun a b => b.index + b.matchLength ≤ a.index)
        (sortByIndexDesc (locateAll ("ab".data)
          [⟨none, ("ab".data), ("X".data)⟩, ⟨none, ("a".data), ("Y".data)⟩])) := by
  exact ⟨by decide, by decide, by decide⟩

/-- C2 (amended): every hunk is located against the original pre-edit
content (each located index is a genuine match of that block's normalized
search body in `contentLF`, the content the splice fold starts from), and
the spliced list is sorted by descending start offset; when the located
match regions are pairwise disjoint — which fails for same-offset hunks —
each splice lies strictly before all already-processed splices. -/
theorem c2_apply_order (contentLF : List Char) (blocks : List DiffBlock) :
    (∀ m ∈ locateAll contentLF blocks, 1 ≤ m.matchLength ∧
      ∃ b, b ∈ blocks ∧ m.matchLength = (normalizeToLF b.searchContent).length ∧
        (normalizeToLF b.searchContent <+: contentLF.drop m.index ∨
          (matchSegs (wsSegsOf (normalizeToLF b.searchContent))
            (contentLF.drop m.index)).isSome)) ∧
    List.Pairwise (fun a b => b.index ≤ a.index)
      (sortByIndexDesc (locateAll contentLF blocks)) ∧
    (List.Pairwise
        (fun a b => a.index + a.matchLength ≤ b.index ∨ b.index + b.matchLength ≤ a.index)
        (locateAll contentLF blocks) →
      List.Pairwise (fun a b => b.index + b.matchLength ≤ a.index)
        (sortByIndexDesc (locateAll contentLF blocks))) := by
  haveI htot : IsTotal Located (fun a b => b.index ≤ a.index) :=
    ⟨fun a b => (Nat.le_total b.index a.index).elim Or.inl Or.inr⟩
  haveI htrans : IsTrans Located (fun a b => b.index ≤ a.index) :=
    ⟨fun a b c hab hbc => Nat.le_trans hbc hab⟩
  refine ⟨fun m hm => locateAll_mem_sound contentLF blocks m hm, ?_, ?_⟩
  · exact List.sorted_insertionSort _ _
  · intro hdisj
    have hperm : List.Perm (sortByIndexDesc (locateAll contentLF blocks))
        (locateAll contentLF blocks) :=
      List.perm_insertionSort _ _
    have hsorted : List.Pairwise (fun a b => b.index ≤ a.index)
        (sortByIndexDesc (locateAll contentLF blocks)) :=
      List.sorted_insertionSort _ _
    have hdisj2 : List.Pairwise
        (fun a b : Located =>
          a.index + a.matchLength ≤ b.index ∨ b.index + b.matchLength ≤ a.index)
        (sortByIndexDesc (locateAll contentLF blocks)) :=
      (hperm.pairwise_iff (fun hx => hx.symm)).mpr hdisj
    have hboth := hsorted.and hdisj2
    apply hboth.imp_of_mem
    intro a b ha hb hr
    have hb1 : 1 ≤ b.matchLength :=
      (locateAll_mem_sound contentLF blocks b (hperm.mem_iff.mp hb)).1
    have ha1 : 1 ≤ a.matchLength :=
      (locateAll_mem_sound contentLF blocks a (hperm.mem_iff.mp ha)).1
    cases hr.2 with
    | inl hcase => omega
    | inr hcase => exact hcase

theorem c2_apply_order_witness :
    List.Pairwise (fun a b => b.index + b.matchLength ≤ a.index)
      (sortByIndexDesc (locateAll ("aaa\nbbb\nccc\n".data)
        [⟨none, ("bbb".data), ("BBB".data)⟩, ⟨none, ("aaa".data), ("AAA".data)⟩])) :=
  (c2_apply_order ("aaa\nbbb\nccc\n".data)
    [⟨none, ("bbb".data), ("BBB".data)⟩, ⟨none, ("aaa".data), ("AAA".data)⟩]).2.2
    (by decide)

/-- C4 counterexample: a diff whose single hunk locates successfully
(replacement equal to its search body) leaves the content unchanged; the call
then reports "no changes needed" and performs *no* write, although the
claim requires a write and a `<success>/<total>` report whenever at least
one hunk locates. -/
theorem c4_counterexample :
    parseDiffBlocks ("<<<<<<< SEARCH\na\n=======\na\n>>>>>>> REPLACE".data)
      = .ok [⟨none, ("a".data), ("a".data)⟩] ∧
    (applyAllBlocks (normalizeToLF ("a\n".data)) [⟨none, ("a".data), ("a".data)⟩]).2
      = [⟨true, some 1⟩] ∧
    codeApplyDiffExecute (some ("a\n".data))
        ("<<<<<<< SEARCH\na\n=======\na\n>>>>>>> REPLACE".data)
      = (.noChangesNeeded, some ("a\n".data), [.access, .read]) := by
  exact ⟨by rfl, by decide, by decide⟩

/-- C4 (amended): with a parsed, non-empty block list — if every hunk
fails to locate, the whole call fails with an all-failed error, the file
state is unchanged and no write occurs; if at least one hunk locates and
the resulting content differs from the raw content, the file is written
with the successful subset applied and the result reports
`successCount`/`totalCount` with the per-hunk breakdown; if at least one
hunk locates but the resulting content is identical to the raw content,
the call reports "no changes needed" and performs no write. -/
theorem c4_policy (raw diff : List Char) (blocks : List DiffBlock)
    (hne : ¬ trimJs diff = []) (hparse : parseDiffBlocks diff = .ok blocks)
    (hblocks : ¬ blocks = []) :
    (((applyAllBlocks (normalizeToLF raw) blocks).2.filter (fun x => x.success)).length = 0 →
      codeApplyDiffExecute (some raw) diff
        = (.errAllFailed
            (((applyAllBlocks (normalizeToLF raw) blocks).2.filter
              (fun x => !x.success)).length),
            some raw, [.access, .read])) ∧
    (0 < ((applyAllBlocks (normalizeToLF raw) blocks).2.filter (fun x => x.success)).length →
      restoreLineEnding (applyAllBlocks (normalizeToLF raw) blocks).1
          (detectLineEnding raw) = raw →
      codeApplyDiffExecute (some raw) diff
        = (.noChangesNeeded, some raw, [.access, .read])) ∧
    (0 < ((applyAllBlocks (normalizeToLF raw) blocks).2.filter (fun x => x.success)).length →
      ¬ restoreLineEnding (applyAllBlocks (normalizeToLF raw) blocks).1
          (detectLineEnding raw) = raw →
      codeApplyDiffExecute (some raw) diff
        = (.applied
            (((applyAllBlocks (normalizeToLF raw) blocks).2.filter
              (fun x => x.success)).length)
            blocks.length
            (applyAllBlocks (normalizeToLF raw) blocks).2
            (restoreLineEnding (applyAllBlocks (normalizeToLF raw) blocks).1
              (detectLineEnding raw)),
            some (restoreLineEnding (applyAllBlocks (normalizeToLF raw) blocks).1
              (detectLineEnding raw)),
            [.access, .read, .write])) := by
  refine ⟨?_, ?_, ?_⟩
  · intro hs0
    simp only [codeApplyDiffExecute, hparse]
    rw [if_neg hne, if_neg hblocks, if_pos hs0]
  · intro hs hfin
    simp only [codeApplyDiffExecute, hparse]
    rw [if_neg hne, if_neg hblocks, if_neg (by omega), if_pos hfin]
  · intro hs hfin
    simp only [codeApplyDiffExecute, hparse]
    rw [if_neg hne, if_neg hblocks, if_neg (by omega), if_neg hfin]

theorem c4_policy_witness :
    codeApplyDiffExecute (some ("aaa\nbbb\nccc\n".data))
        (("<<<<<<< SEARCH\nbbb\n=======\nBBB\n>>>>>>> REPLACE\n" ++
          "<<<<<<< SEARCH\nzzz\n=======\nZZZ\n>>>>>>> REPLACE").data)
      = (.applied 1 2 [⟨true, some 2⟩, ⟨false, none⟩] ("aaa\nBBB\nccc\n".data),
          some ("aaa\nBBB\nccc\n".data), [.access, .read, .write]) :=
  ((c4_policy ("aaa\nbbb\nccc\n".data)
      (("<<<<<<< SEARCH\nbbb\n=======\nBBB\n>>>>>>> REPLACE\n" ++
        "<<<<<<< SEARCH\nzzz\n=======\nZZZ\n>>>>>>> REPLACE").data)
      [⟨none, ("bbb".data), ("BBB".data)⟩, ⟨none, ("zzz".data), ("ZZZ".data)⟩]
      (by decide) (by rfl) (by decide)).2.2 (by decide) (by decide)).trans (by decide)
